import Mathlib

/-!
Shallow embedding of the scroll-driven section activation and background
crossfade subsystem of the sos-foundation-site landing page
(src/sos-foundation-site/src/app/page.tsx), together with theorems that
settle the specification claims about it.

Numbers are modelled as rationals; JavaScript `Math.round` is modelled as
`jsRound`; the loaded-image registry is a list of URLs in insertion order;
React component state is modelled as explicit state machines with
reachability predicates.
-/

namespace SOS

/-- Source function `clamp01`: `Math.min(1, Math.max(0, x))`. -/
def clamp01 (x : ℚ) : ℚ := min 1 (max 0 x)

/-- The scroll-progress computation inside `useScrollProgress`:
`max = scrollHeight - clientHeight`;
`max <= 0 ? 0 : Math.min(1, Math.max(0, scrollTop / max))`. -/
def scrollProgress (scrollTop scrollHeight clientHeight : ℚ) : ℚ :=
  let m := scrollHeight - clientHeight
  if m ≤ 0 then 0 else min 1 (max 0 (scrollTop / m))

/-- Source function `lerp`: `a + (b - a) * t`. -/
def lerp (a b t : ℚ) : ℚ := a + (b - a) * t

/-- Value of one hexadecimal digit character, as consumed by
`parseInt(h, 16)` in `hexToRgb` (domain of interest: hex digits). -/
def hexDigitVal (c : Char) : ℕ :=
  if '0' ≤ c ∧ c ≤ '9' then c.toNat - 48
  else if 'a' ≤ c ∧ c ≤ 'f' then c.toNat - 87
  else if 'A' ≤ c ∧ c ≤ 'F' then c.toNat - 55
  else 0

/-- Numeric value of a hex color string after `hex.replace("#", "")`,
as computed by `parseInt(h, 16)` on a string of hex digits. -/
def hexToNat (s : List Char) : ℕ :=
  (s.filter (fun c => c ≠ '#')).foldl (fun acc c => 16 * acc + hexDigitVal c) 0

/-- Source function `hexToRgb`: extracts the three 8-bit channels of the
parsed value with `(bigint >> 16) & 255`, `(bigint >> 8) & 255`,
`bigint & 255`. -/
def hexToRgb (s : List Char) : ℕ × ℕ × ℕ :=
  let n := hexToNat s
  ((n >>> 16) &&& 255, (n >>> 8) &&& 255, n &&& 255)

/-- JavaScript `Math.round`: rounds half toward positive infinity. -/
def jsRound (x : ℚ) : ℤ := ⌊x + 1 / 2⌋

/-- Source function `mixHex`: channel-wise `Math.round(lerp(A.c, B.c, t))`
on the parsed colors. The source renders the result as an `rgb(r, g, b)`
string; the embedding keeps the channel triple. -/
def mixHex (a b : List Char) (t : ℚ) : ℤ × ℤ × ℤ :=
  (jsRound (lerp ((hexToRgb a).1 : ℚ) ((hexToRgb b).1 : ℚ) t),
   jsRound (lerp ((hexToRgb a).2.1 : ℚ) ((hexToRgb b).2.1 : ℚ) t),
   jsRound (lerp ((hexToRgb a).2.2 : ℚ) ((hexToRgb b).2.2 : ℚ) t))

/-- Source function `isLoaded` in `usePreloadedImages`: `if (!url) return true;
return loadedRef.current.has(url)`. A JavaScript string is falsy exactly
when it is empty, and `null`/`undefined` are falsy; the registry is the
list of loaded URLs in insertion order. -/
def isLoaded (loaded : List String) (url : Option String) : Bool :=
  match url with
  | none => true
  | some u => if u = "" then true else loaded.contains u

/-- Whether the cancellation flag of the preload effect is set at
checkpoint `t`; `none` means the owning component is never torn down,
`some c` means the flag becomes set at checkpoint `c` and stays set. -/
def cancelledAt (cAt : Option ℕ) (t : ℕ) : Bool :=
  match cAt with
  | none => false
  | some c => decide (c ≤ t)

/-- The sequential preload loop of `usePreloadedImages`. One checkpoint
is consumed per awaited decode (the only suspension points); the loop
checks the cancellation flag at the top of each iteration and again after
the decode, skips empty and already-loaded URLs, ignores the decode
outcome `dec url` (the `try/catch` swallows errors), then appends the URL
to the registry and counts one forced re-render. Returns the final
registry and the number of re-renders triggered. -/
def preloadRun (dec : String → Bool) (cAt : Option ℕ) :
    ℕ → List String → List String → List String × ℕ
  | _, loaded, [] => (loaded, 0)
  | t, loaded, url :: rest =>
    if cancelledAt cAt t then (loaded, 0)
    else if url = "" ∨ url ∈ loaded then preloadRun dec cAt t loaded rest
    else
      let _decodeOutcome := dec url
      if cancelledAt cAt (t + 1) then (loaded, 0)
      else
        let r := preloadRun dec cAt (t + 1) (loaded ++ [url]) rest
        (r.1, r.2 + 1)

/-- The URLs a completed, uncancelled run appends to a registry that
already holds `loaded`: the fresh, non-empty input URLs in input order. -/
def freshAppend (loaded : List String) : List String → List String
  | [] => []
  | url :: rest =>
    if url = "" ∨ url ∈ loaded then freshAppend loaded rest
    else url :: freshAppend (loaded ++ [url]) rest

/-- One background configuration entry of `cfgFor` in
`DivisionBackgroundCrossfade`. -/
structure BgCfg where
  image : Option String
  overlay : String
  position : Option String
deriving DecidableEq

/-- Source function `cfgFor` in `DivisionBackgroundCrossfade`: the static background
configuration table, `null` for unknown keys. -/
def cfgFor (k : String) : Option BgCfg :=
  if k = "meaning" then
    some ⟨some "/pics/meaning_img.JPG",
      "linear-gradient(180deg, rgba(31,42,51,0) 0%, rgba(31,42,51,0.10) 6%, rgba(0,0,0,0.58) 100%)",
      none⟩
  else if k = "pattern" then
    some ⟨some "/pics/pattern.JPG",
      "linear-gradient(180deg, rgba(6, 50, 3, 0.2) 5%, rgba(4, 34, 2, 0.4) 22%, rgba(4, 34, 2, 0.70) 100%)",
      none⟩
  else if k = "mechanism" then
    some ⟨some "/pics/mechanism.JPG",
      "linear-gradient(180deg, rgba(106, 66, 81, 0.20) 5%, rgba(106, 66, 81, 0.4) 8%, rgba(0,0,0,0.7) 100%)",
      none⟩
  else if k = "hero" then
    some ⟨some "/pics/Vision_bg.png", "rgba(8, 24, 36, 0.85)", some "center top -100px"⟩
  else if k = "work" then
    some ⟨some "/pics/work.JPG",
      "linear-gradient(180deg, rgba(245,247,246,0.3) 0%, rgba(245,247,246,0.3) 55%, rgba(245,247,246,0.3) 100%)",
      none⟩
  else if k = "involved" then
    some ⟨some "/pics/involved.JPG",
      "linear-gradient(180deg, rgba(245,247,246,0.5) 0%, rgba(245,247,246,0.5) 55%, rgba(245,247,246,0.5) 100%)",
      none⟩
  else none

/-- The `key` normalization at the top of `DivisionBackgroundCrossfade`:
the active id if it is one of the six section ids, otherwise `"none"`. -/
def normalizeKey (active : String) : String :=
  if active = "hero" ∨ active = "meaning" ∨ active = "pattern" ∨
     active = "mechanism" ∨ active = "work" ∨ active = "involved"
  then active else "none"

/-- JavaScript falsiness of an optional string (`!next?.image`). -/
def jsFalsy : Option String → Bool
  | none => true
  | some s => decide (s = "")

/-- Body of the `useEffect` in `DivisionBackgroundCrossfade`: given the
registry, the current key and the current displayed key, returns the new
displayed key. `if (key === "none") setDisplayKey("none")`, else
`if (!next?.image || isLoaded(next.image)) setDisplayKey(key)`. -/
def effectSetDisplay (loaded : List String) (k dk : String) : String :=
  if k = "none" then "none"
  else
    let img := (cfgFor k).bind BgCfg.image
    if jsFalsy img || isLoaded loaded img then k else dk

/-- State of the mounted `DivisionBackgroundCrossfade` component together
with the registry of its preloader: the `active` prop, the `key`
dependency recorded at the last render (the `isLoaded` dependency is a
`useCallback` with an empty dependency list, so its identity never
changes), the `displayKey` state, and the loaded-URL registry. -/
structure CxState where
  active : String
  lastKey : String
  displayKey : String
  loaded : List String
deriving DecidableEq

/-- Mount: `useState(key)` initializes `displayKey` to the current key
with an empty registry, and the effect runs once after the first render. -/
def mountCx (a : String) : CxState :=
  let k := normalizeKey a
  { active := a, lastKey := k,
    displayKey := effectSetDisplay [] k k, loaded := [] }

/-- Events driving the mounted component: a change of the `active` prop,
or the preloader finishing one URL (which appends to the registry and
forces a re-render). -/
inductive CxEv where
  | setActive (a : String)
  | imageLoaded (u : String)

/-- One re-render of `DivisionBackgroundCrossfade`. React re-runs the
effect only when its dependency array `[key, isLoaded]` changed since the
previous render; `isLoaded` has stable identity, so the effect runs
exactly when the key changed. A completed preload appends the URL to the
registry and re-renders, but changes neither dependency. -/
def cxStep (s : CxState) : CxEv → CxState
  | CxEv.setActive a =>
    let k := normalizeKey a
    if k = s.lastKey then { s with active := a, lastKey := k }
    else
      { s with
        active := a
        lastKey := k
        displayKey := effectSetDisplay s.loaded k s.displayKey }
  | CxEv.imageLoaded u =>
    { s with loaded := if u = "" ∨ u ∈ s.loaded then s.loaded else s.loaded ++ [u] }

/-- Reachable states of the crossfade component mounted with initial
active id `a0`. -/
inductive CxReach (a0 : String) : CxState → Prop where
  | mount : CxReach a0 (mountCx a0)
  | step (s : CxState) (e : CxEv) : CxReach a0 s → CxReach a0 (cxStep s e)

/-- The image the renderer currently draws: the image of the displayed
configuration, if any. -/
def renderedImage (s : CxState) : Option String :=
  (cfgFor s.displayKey).bind BgCfg.image

/-- The deferred-switch scenario: the component mounts with active id
`hero`, the hero image finishes preloading, the active id changes to
`pattern` while the pattern image is not yet loaded, and then the pattern
image finishes preloading. -/
def patternLoadTrace : CxState :=
  cxStep
    (cxStep (cxStep (mountCx "hero") (CxEv.imageLoaded "/pics/Vision_bg.png"))
      (CxEv.setActive "pattern"))
    (CxEv.imageLoaded "/pics/pattern.JPG")

/-- The epsilon of `commitBest`: `score > bestScore + 1e-6`. -/
def tieEps : ℚ := 1 / 1000000

/-- One iteration of the `for (const id of sectionIds)` loop in
`commitBest`: a candidate replaces the running best exactly when its
score exceeds the best score by more than `1e-6`. -/
def bestStep (ratios : String → ℚ) (acc : String × ℚ) (id : String) : String × ℚ :=
  if acc.2 + tieEps < ratios id then (id, ratios id) else acc

/-- Source function `commitBest` in `useActiveSection`: starts from
`prev || sectionIds[0] || ""` with best score `-1`, scans the section ids
in declared order, and keeps `prev` when the scan lands on `prev` or on
the empty string. `ratios` is the stored ratio map with default `0`
(`ratios.get(id) ?? 0`). -/
def commitBest (sectionIds : List String) (ratios : String → ℚ) (prev : String) : String :=
  let start : String := if prev = "" then sectionIds.headD "" else prev
  let best := sectionIds.foldl (bestStep ratios) (start, -1)
  if best.1 = "" then prev else if prev = best.1 then prev else best.1

/-- The section id list the page passes to `useActiveSection`. -/
def pageSectionIds : List String :=
  ["hero", "meaning", "pattern", "mechanism", "work", "involved"]

/-- Application of one batch of intersection entries to the stored ratio
map: `ratios.set(id, entry.isIntersecting ? entry.intersectionRatio : 0)`
for each entry in delivery order (last write wins). -/
def applyEntries (m : String → ℚ) : List (String × Bool × ℚ) → String → ℚ
  | [] => m
  | e :: rest =>
      applyEntries (Function.update m e.1 (if e.2.1 then e.2.2 else 0)) rest

/-- State of `useActiveSection`: the stored ratio map and the active id. -/
structure ASState where
  ratios : String → ℚ
  active : String

/-- Reachable states of `useActiveSection`: the active id starts at
`sectionIds[0] || ""` with an empty ratio map; each observer batch
updates the map and then recomputes the active id with `commitBest`.
Entry ratios are intersection ratios, hence in `[0, 1]`. -/
inductive ASReach (sectionIds : List String) : ASState → Prop where
  | init : ASReach sectionIds ⟨fun _ => 0, sectionIds.headD ""⟩
  | step (s : ASState) (entries : List (String × Bool × ℚ))
      (hwf : ∀ e ∈ entries, 0 ≤ e.2.2 ∧ e.2.2 ≤ 1) :
      ASReach sectionIds s →
      ASReach sectionIds
        ⟨applyEntries s.ratios entries,
         commitBest sectionIds (applyEntries s.ratios entries) s.active⟩

/-! ### Helper lemmas -/

theorem lerp_zero (x y : ℚ) : lerp x y 0 = x := by unfold lerp; ring

theorem lerp_one (x y : ℚ) : lerp x y 1 = y := by unfold lerp; ring

theorem lerp_half (x y : ℚ) : lerp x y (1 / 2) = (x + y) / 2 := by unfold lerp; ring

theorem jsRound_natCast (n : ℕ) : jsRound (n : ℚ) = (n : ℤ) := by
  unfold jsRound
  rw [Int.floor_eq_iff]
  constructor
  · push_cast; linarith
  · push_cast; linarith

theorem cancelledAt_mono (cAt : Option ℕ) (t : ℕ) (h : cancelledAt cAt t = true) :
    cancelledAt cAt (t + 1) = true := by
  cases cAt with
  | none => simp [cancelledAt] at h
  | some c => simp [cancelledAt] at h ⊢; omega

theorem preloadRun_cancelled_succ (dec : String → Bool) (cAt : Option ℕ) :
    ∀ (urls : List String) (t : ℕ) (loaded : List String),
      cancelledAt cAt (t + 1) = true →
      preloadRun dec cAt t loaded urls = (loaded, 0) := by
  intro urls
  induction urls with
  | nil => intro t loaded _; rfl
  | cons url rest ih =>
    intro t loaded h
    by_cases h0 : cancelledAt cAt t = true
    · simp [preloadRun, h0]
    · by_cases hskip : url = "" ∨ url ∈ loaded
      · simp only [preloadRun, h0, if_false, Bool.false_eq_true, hskip, if_true]
        exact ih t loaded h
      · simp [preloadRun, h0, hskip, h]

theorem preloadRun_no_cancel (dec : String → Bool) :
    ∀ (urls : List String) (t : ℕ) (loaded : List String),
      preloadRun dec none t loaded urls =
        (loaded ++ freshAppend loaded urls, (freshAppend loaded urls).length) := by
  intro urls
  induction urls with
  | nil => intro t loaded; simp [preloadRun, freshAppend]
  | cons url rest ih =>
    intro t loaded
    by_cases h : url = "" ∨ url ∈ loaded
    · simp [preloadRun, freshAppend, cancelledAt, h, ih]
    · simp [preloadRun, freshAppend, cancelledAt, h, ih t.succ (loaded ++ [url])]

theorem preloadRun_dec_independent (d1 d2 : String → Bool) (cAt : Option ℕ) :
    ∀ (urls : List String) (t : ℕ) (loaded : List String),
      preloadRun d1 cAt t loaded urls = preloadRun d2 cAt t loaded urls := by
  intro urls
  induction urls with
  | nil => intro t loaded; rfl
  | cons url rest ih =>
    intro t loaded
    simp only [preloadRun]
    by_cases h0 : cancelledAt cAt t = true
    · simp [h0]
    · by_cases hskip : url = "" ∨ url ∈ loaded
      · simp [h0, hskip, ih]
      · simp [h0, hskip, ih]

theorem headD_mem_of_ne_nil (l : List String) (d : String) (h : l ≠ []) :
    l.headD d ∈ l := by
  cases l with
  | nil => exact absurd rfl h
  | cons x xs => simp [List.headD]

theorem tieEps_pos : (0 : ℚ) < tieEps := by norm_num [tieEps]

theorem tieEps_lt_one : tieEps < (1 : ℚ) := by norm_num [tieEps]

theorem bestStep_snd_le (r : String → ℚ) (acc : String × ℚ) (id : String) :
    acc.2 ≤ (bestStep r acc id).2 := by
  unfold bestStep
  split_ifs with h
  · show acc.2 ≤ r id
    have := tieEps_pos
    linarith
  · exact le_rfl

theorem foldl_bestStep_mono (r : String → ℚ) :
    ∀ (l : List String) (acc : String × ℚ), acc.2 ≤ (l.foldl (bestStep r) acc).2 := by
  intro l
  induction l with
  | nil => intro acc; exact le_rfl
  | cons a rest ih =>
    intro acc
    exact (bestStep_snd_le r acc a).trans (ih (bestStep r acc a))

theorem foldl_bestStep_eq_or_mem (r : String → ℚ) :
    ∀ (l : List String) (acc : String × ℚ),
      l.foldl (bestStep r) acc = acc ∨ (l.foldl (bestStep r) acc).1 ∈ l := by
  intro l
  induction l with
  | nil => intro acc; exact Or.inl rfl
  | cons a rest ih =>
    intro acc
    rw [List.foldl_cons]
    rcases ih (bestStep r acc a) with h | h
    · rw [h]
      unfold bestStep
      split_ifs
      · exact Or.inr (by simp)
      · exact Or.inl rfl
    · exact Or.inr (List.mem_cons_of_mem a h)

theorem foldl_bestStep_fst_ne (r : String → ℚ) (b : String) (l : List String)
    (acc : String × ℚ) (hbl : b ∉ l) (hacc : acc.1 ≠ b) :
    (l.foldl (bestStep r) acc).1 ≠ b := by
  rcases foldl_bestStep_eq_or_mem r l acc with h | h
  · rw [h]; exact hacc
  · intro hc; exact hbl (hc ▸ h)

theorem foldl_bestStep_lt (r : String → ℚ) (M : ℚ) :
    ∀ (l : List String) (acc : String × ℚ), acc.2 + tieEps < M →
      (∀ id ∈ l, r id + tieEps < M) →
      (l.foldl (bestStep r) acc).2 + tieEps < M := by
  intro l
  induction l with
  | nil => intro acc hacc _; exact hacc
  | cons a rest ih =>
    intro acc hacc hl
    rw [List.foldl_cons]
    refine ih (bestStep r acc a) ?_ (fun id hid => hl id (List.mem_cons_of_mem a hid))
    unfold bestStep
    split_ifs
    · show r a + tieEps < M
      exact hl a (List.mem_cons_self a rest)
    · exact hacc

theorem foldl_bestStep_stay (r : String → ℚ) :
    ∀ (l : List String) (acc : String × ℚ),
      (∀ id ∈ l, ¬ (acc.2 + tieEps < r id)) → l.foldl (bestStep r) acc = acc := by
  intro l
  induction l with
  | nil => intro acc _; rfl
  | cons a rest ih =>
    intro acc hl
    rw [List.foldl_cons]
    have ha : bestStep r acc a = acc := by
      unfold bestStep
      exact if_neg (hl a (List.mem_cons_self a rest))
    rw [ha]
    exact ih acc (fun id hid => hl id (List.mem_cons_of_mem a hid))

theorem commitBest_argmax (l₁ l₂ : List String) (m : String) (r : String → ℚ)
    (prev : String) (hm : m ≠ "") (h0 : 0 ≤ r m)
    (h1 : ∀ id ∈ l₁, r id + tieEps < r m)
    (h2 : ∀ id ∈ l₂, r id + tieEps < r m) :
    commitBest (l₁ ++ m :: l₂) r prev = m := by
  simp only [commitBest]
  rw [List.foldl_append, List.foldl_cons]
  set start : String := if prev = "" then (l₁ ++ m :: l₂).headD "" else prev
  have hacc0 : ((start, (-1 : ℚ))).2 + tieEps < r m := by
    show (-1 : ℚ) + tieEps < r m
    have := tieEps_lt_one
    linarith
  have hacc1 := foldl_bestStep_lt r (r m) l₁ (start, -1) hacc0 h1
  have hwin : bestStep r (l₁.foldl (bestStep r) (start, -1)) m =
      (m, r m) := by
    unfold bestStep
    exact if_pos hacc1
  rw [hwin]
  have hstay : l₂.foldl (bestStep r) (m, r m) = (m, r m) := by
    refine foldl_bestStep_stay r l₂ (m, r m) (fun id hid => ?_)
    have h3 := h2 id hid
    have h4 := tieEps_pos
    show ¬ ((m, r m).2 + tieEps < r id)
    refine not_lt.mpr ?_
    show r id ≤ r m + tieEps
    linarith
  rw [hstay]
  show (if m = "" then prev else if prev = m then prev else m) = m
  rw [if_neg hm]
  split_ifs with hp
  · exact hp
  · rfl

theorem commitBest_not_later_tie (l₁ l₂ l₃ : List String) (a b : String)
    (r : String → ℚ) (prev : String)
    (hne : ∀ id ∈ l₁ ++ a :: (l₂ ++ b :: l₃), id ≠ "")
    (hb1 : b ∉ l₁) (hba : b ≠ a) (hb2 : b ∉ l₂) (hb3 : b ∉ l₃)
    (h0 : 0 ≤ r a) (hab : r b ≤ r a) :
    commitBest (l₁ ++ a :: (l₂ ++ b :: l₃)) r prev ≠ b := by
  have heps := tieEps_pos
  have heps1 := tieEps_lt_one
  simp only [commitBest]
  set ids := l₁ ++ a :: (l₂ ++ b :: l₃) with hids
  set start : String := if prev = "" then ids.headD "" else prev with hstartdef
  have hstart : start ≠ "" := by
    rw [hstartdef]
    split_ifs with hp
    · intro hcontra
      have hnil : ids ≠ [] := by rw [hids]; simp
      exact hne _ (headD_mem_of_ne_nil ids "" hnil) hcontra
    · exact hp
  set acc1 := l₁.foldl (bestStep r) (start, (-1 : ℚ)) with hacc1def
  set acc2 := bestStep r acc1 a with hacc2def
  have hacc2 : acc2.1 ≠ b ∧ r a - tieEps ≤ acc2.2 := by
    rcases foldl_bestStep_eq_or_mem r l₁ (start, -1) with h | h
    · have hstep : acc2 = (a, r a) := by
        rw [hacc2def, hacc1def, h]
        unfold bestStep
        rw [if_pos]
        show (-1 : ℚ) + tieEps < r a
        linarith
      rw [hstep]
      refine ⟨Ne.symm hba, ?_⟩
      show r a - tieEps ≤ r a
      linarith
    · by_cases hw : acc1.2 + tieEps < r a
      · have hstep : acc2 = (a, r a) := by
          rw [hacc2def]; unfold bestStep; rw [if_pos hw]
        rw [hstep]
        refine ⟨Ne.symm hba, ?_⟩
        show r a - tieEps ≤ r a
        linarith
      · have hstep : acc2 = acc1 := by
          rw [hacc2def]; unfold bestStep; rw [if_neg hw]
        rw [hstep]
        refine ⟨fun hc => hb1 (hc ▸ (hacc1def ▸ h)), ?_⟩
        rw [not_lt] at hw
        linarith
  set acc3 := l₂.foldl (bestStep r) acc2 with hacc3def
  have hacc3fst : acc3.1 ≠ b := foldl_bestStep_fst_ne r b l₂ acc2 hb2 hacc2.1
  have hacc3snd : r a - tieEps ≤ acc3.2 :=
    hacc2.2.trans (foldl_bestStep_mono r l₂ acc2)
  have hbskip : bestStep r acc3 b = acc3 := by
    unfold bestStep
    exact if_neg (not_lt.mpr (by linarith))
  have hfold : ids.foldl (bestStep r) (start, -1) = l₃.foldl (bestStep r) acc3 := by
    rw [hids, List.foldl_append, List.foldl_cons, List.foldl_append, List.foldl_cons,
      ← hacc1def, ← hacc2def, ← hacc3def, hbskip]
  have hfinalfst : (ids.foldl (bestStep r) (start, -1)).1 ≠ b := by
    rw [hfold]
    exact foldl_bestStep_fst_ne r b l₃ acc3 hb3 hacc3fst
  have hfinalne : (ids.foldl (bestStep r) (start, -1)).1 ≠ "" := by
    rcases foldl_bestStep_eq_or_mem r ids (start, -1) with h | h
    · rw [h]; exact hstart
    · exact hne _ h
  rw [if_neg hfinalne]
  split_ifs with hp
  · rw [hp]; exact hfinalfst
  · exact hfinalfst

theorem commitBest_mem (ids : List String) (r : String → ℚ) (prev : String)
    (hids : ids ≠ []) (hprev : prev ∈ ids) : commitBest ids r prev ∈ ids := by
  simp only [commitBest]
  set start : String := if prev = "" then ids.headD "" else prev with hstartdef
  have hstart : start ∈ ids := by
    rw [hstartdef]
    split_ifs with hp
    · exact headD_mem_of_ne_nil ids "" hids
    · exact hprev
  rcases foldl_bestStep_eq_or_mem r ids (start, -1) with h | h
  · rw [h]
    show (if start = "" then prev else if prev = start then prev else start) ∈ ids
    split_ifs <;> assumption
  · split_ifs with h1 h2
    · exact hprev
    · exact hprev
    · exact h

theorem commitBest_nil (r : String → ℚ) (prev : String) :
    commitBest [] r prev = prev := by
  simp only [commitBest, List.foldl_nil]
  by_cases hp : prev = ""
  · subst hp
    simp [List.headD]
  · simp [hp]

theorem applyEntries_perm :
    ∀ {e₁ e₂ : List (String × Bool × ℚ)}, e₁.Perm e₂ →
      (e₁.map Prod.fst).Nodup → ∀ (m : String → ℚ),
      applyEntries m e₁ = applyEntries m e₂ := by
  intro e₁ e₂ hp
  induction hp with
  | nil => intro _ _; rfl
  | cons x hrest ih =>
    intro hd m
    rw [List.map_cons] at hd
    have hd2 := (List.nodup_cons.mp hd).2
    show applyEntries (Function.update m x.1 (if x.2.1 then x.2.2 else 0)) _ =
      applyEntries (Function.update m x.1 (if x.2.1 then x.2.2 else 0)) _
    exact ih hd2 _
  | swap x y l =>
    intro hd m
    rw [List.map_cons, List.map_cons] at hd
    have hd1 := (List.nodup_cons.mp hd).1
    have hyx : y.1 ≠ x.1 :=
      fun hc => hd1 (by rw [hc]; exact List.mem_cons_self _ _)
    show applyEntries
        (Function.update (Function.update m y.1 (if y.2.1 then y.2.2 else 0)) x.1
          (if x.2.1 then x.2.2 else 0)) l =
      applyEntries
        (Function.update (Function.update m x.1 (if x.2.1 then x.2.2 else 0)) y.1
          (if y.2.1 then y.2.2 else 0)) l
    rw [Function.update_comm hyx]
  | trans h₁ h₂ ih₁ ih₂ =>
    intro hd m
    rw [ih₁ hd m]
    exact ih₂ (by rwa [(h₁.map Prod.fst).nodup_iff] at hd) m

theorem effectSetDisplay_self (l : List String) (k : String) :
    effectSetDisplay l k k = k := by
  simp only [effectSetDisplay]
  split_ifs with h1 h2
  · exact h1.symm
  · rfl
  · rfl

theorem cfgFor_image_ne_empty (k u : String)
    (h : (cfgFor k).bind BgCfg.image = some u) : u ≠ "" := by
  unfold cfgFor at h
  split_ifs at h <;> simp_all [Option.bind]
  all_goals (subst h; decide)

theorem effectSetDisplay_cases (loaded : List String) (k dk : String) :
    effectSetDisplay loaded k dk = dk ∨
    (∀ u, (cfgFor (effectSetDisplay loaded k dk)).bind BgCfg.image = some u →
      u ∈ loaded) := by
  by_cases hn : k = "none"
  · right
    intro u hu
    simp only [effectSetDisplay, if_pos hn] at hu
    simp [cfgFor] at hu
  · by_cases hcond : (jsFalsy ((cfgFor k).bind BgCfg.image) ||
        isLoaded loaded ((cfgFor k).bind BgCfg.image)) = true
    · right
      intro u hu
      simp only [effectSetDisplay, if_neg hn, if_pos hcond] at hu
      have hune : u ≠ "" := cfgFor_image_ne_empty k u hu
      rw [hu] at hcond
      simp [jsFalsy, isLoaded, hune] at hcond
      exact hcond
    · left
      simp only [effectSetDisplay, if_neg hn, if_neg hcond]

theorem cxStep_keeps_display (s : CxState) (a u : String)
    (hk : normalizeKey a ≠ s.lastKey) (hn : normalizeKey a ≠ "none")
    (him : (cfgFor (normalizeKey a)).bind BgCfg.image = some u)
    (hu : u ∉ s.loaded) :
    (cxStep s (CxEv.setActive a)).displayKey = s.displayKey := by
  have hune : u ≠ "" := cfgFor_image_ne_empty _ u him
  simp only [cxStep]
  rw [if_neg hk]
  show effectSetDisplay s.loaded (normalizeKey a) s.displayKey = s.displayKey
  simp only [effectSetDisplay, if_neg hn]
  rw [him]
  have hc : (jsFalsy (some u) || isLoaded s.loaded (some u)) = false := by
    simp [jsFalsy, isLoaded, hune, hu]
  simp [hc]

theorem crossfade_inv (a0 : String) (s : CxState) (h : CxReach a0 s) :
    s.displayKey = normalizeKey a0 ∨
      (∀ u, renderedImage s = some u → u ∈ s.loaded) := by
  induction h with
  | mount =>
    left
    show (mountCx a0).displayKey = normalizeKey a0
    simp only [mountCx]
    exact effectSetDisplay_self [] (normalizeKey a0)
  | step s e hr ih =>
    cases e with
    | setActive a =>
      simp only [cxStep]
      by_cases hk : normalizeKey a = s.lastKey
      · rw [if_pos hk]
        rcases ih with h1 | h2
        · left; exact h1
        · right; intro u hu; exact h2 u hu
      · rw [if_neg hk]
        rcases effectSetDisplay_cases s.loaded (normalizeKey a) s.displayKey with he | he
        · rcases ih with h1 | h2
          · left
            show effectSetDisplay s.loaded (normalizeKey a) s.displayKey = normalizeKey a0
            rw [he]; exact h1
          · right
            intro u hu
            refine h2 u ?_
            show (cfgFor s.displayKey).bind BgCfg.image = some u
            rw [← he]
            exact hu
        · right
          intro u hu
          exact he u hu
    | imageLoaded u0 =>
      simp only [cxStep]
      rcases ih with h1 | h2
      · left; exact h1
      · right
        intro u hu
        have hmem := h2 u hu
        show u ∈ (if u0 = "" ∨ u0 ∈ s.loaded then s.loaded else s.loaded ++ [u0])
        split_ifs
        · exact hmem
        · exact List.mem_append_left _ hmem

/-! ### Claim theorems -/

/-- C5: for scroll offsets `0 ≤ s ≤ maxScroll` the progress is
`s / maxScroll` clamped to `[0, 1]`; progress is non-decreasing in the
offset; progress at offset `0` is `0`; whenever `maxScroll ≤ 0` the
result is exactly `0`; and the result always lies in `[0, 1]`. -/
theorem scrollProgress_spec (scrollHeight clientHeight s s2 : ℚ) :
    (0 ≤ s → s ≤ scrollHeight - clientHeight →
      scrollProgress s scrollHeight clientHeight =
        clamp01 (s / (scrollHeight - clientHeight))) ∧
    (s ≤ s2 →
      scrollProgress s scrollHeight clientHeight ≤
        scrollProgress s2 scrollHeight clientHeight) ∧
    scrollProgress 0 scrollHeight clientHeight = 0 ∧
    (scrollHeight - clientHeight ≤ 0 → scrollProgress s scrollHeight clientHeight = 0) ∧
    0 ≤ scrollProgress s scrollHeight clientHeight ∧
    scrollProgress s scrollHeight clientHeight ≤ 1 := by
  by_cases hm : scrollHeight - clientHeight ≤ 0
  · have he : ∀ x : ℚ, scrollProgress x scrollHeight clientHeight = 0 := by
      intro x; unfold scrollProgress; simp [hm]
    refine ⟨fun hs1 hs2 => ?_, fun _ => ?_, he 0, fun _ => he s, ?_, ?_⟩
    · have hs0 : s = 0 := le_antisymm (hs2.trans hm) hs1
      rw [he s, hs0]
      simp [clamp01]
    · rw [he s, he s2]
    · rw [he s]
    · rw [he s]; norm_num
  · have hm2 : 0 < scrollHeight - clientHeight := lt_of_not_ge hm
    have he : ∀ x : ℚ, scrollProgress x scrollHeight clientHeight =
        min 1 (max 0 (x / (scrollHeight - clientHeight))) := by
      intro x; unfold scrollProgress; simp [hm]
    refine ⟨fun _ _ => by rw [he s]; rfl, fun hle => ?_, ?_, fun h => absurd h hm, ?_, ?_⟩
    · rw [he s, he s2]
      exact min_le_min le_rfl (max_le_max le_rfl ((div_le_div_iff_of_pos_right hm2).mpr hle))
    · rw [he 0]; simp
    · rw [he s]; exact le_min (by norm_num) (le_max_left _ _)
    · rw [he s]; exact min_le_left _ _

/-- C5 witness: the general statement applied at `scrollHeight = 10`,
`clientHeight = 2`, `s = 4`. -/
theorem scrollProgress_spec_witness :
    0 ≤ (4 : ℚ) ∧ (4 : ℚ) ≤ 10 - 2 ∧
    scrollProgress 4 10 2 = clamp01 (4 / (10 - 2)) :=
  ⟨by norm_num, by norm_num,
    (scrollProgress_spec 10 2 4 4).1 (by norm_num) (by norm_num)⟩

/-- C7 counterexample: at `t = 1/2` the mixed color is not the exact
channel-wise midpoint; for `#000000` and `#010101` the red channels are
`0` and `1`, their midpoint is `1/2`, but `mixHex` yields `1`
(`Math.round` of the midpoint). -/
theorem mixHex_midpoint_not_exact :
    ((mixHex ("#000000".toList) ("#010101".toList) (1 / 2)).1 : ℚ) ≠
      (((hexToRgb ("#000000".toList)).1 : ℚ) +
        ((hexToRgb ("#010101".toList)).1 : ℚ)) / 2 := by
  have hA : hexToRgb ("#000000".toList) = (0, 0, 0) := by decide
  have hB : hexToRgb ("#010101".toList) = (1, 1, 1) := by decide
  rw [mixHex, hA, hB]
  norm_num [lerp, jsRound]

/-- C7 amended: for all colors, `mixHex` at `t = 0` returns the first
color and at `t = 1` the second color channel-wise, and at `t = 1/2` it
returns the channel-wise midpoint rounded to the nearest integer with
`Math.round` (halves rounding up). -/
theorem mixHex_boundary_and_rounded_midpoint (a b : List Char) :
    mixHex a b 0 =
      (((hexToRgb a).1 : ℤ), ((hexToRgb a).2.1 : ℤ), ((hexToRgb a).2.2 : ℤ)) ∧
    mixHex a b 1 =
      (((hexToRgb b).1 : ℤ), ((hexToRgb b).2.1 : ℤ), ((hexToRgb b).2.2 : ℤ)) ∧
    mixHex a b (1 / 2) =
      (jsRound ((((hexToRgb a).1 : ℚ) + ((hexToRgb b).1 : ℚ)) / 2),
       jsRound ((((hexToRgb a).2.1 : ℚ) + ((hexToRgb b).2.1 : ℚ)) / 2),
       jsRound ((((hexToRgb a).2.2 : ℚ) + ((hexToRgb b).2.2 : ℚ)) / 2)) := by
  refine ⟨?_, ?_, ?_⟩ <;>
    simp only [mixHex, lerp_zero, lerp_one, lerp_half, jsRound_natCast]

/-- C9: `isLoaded` returns `true` for a `null` or empty URL regardless of
the registry, and for a non-empty URL it returns `true` exactly when the
URL is in the registry. -/
theorem isLoaded_spec (loaded : List String) (u : String) :
    isLoaded loaded none = true ∧
    isLoaded loaded (some "") = true ∧
    (u ≠ "" → (isLoaded loaded (some u) = true ↔ u ∈ loaded)) := by
  refine ⟨rfl, by simp [isLoaded], fun hu => ?_⟩
  simp [isLoaded, hu]

/-- C9 witness: the registry-membership equivalence applied at a concrete
non-empty URL and registry. -/
theorem isLoaded_spec_witness :
    ("a" : String) ≠ "" ∧
    (isLoaded ["a"] (some "a") = true ↔ "a" ∈ (["a"] : List String)) :=
  ⟨by decide, (isLoaded_spec ["a"] "a").2.2 (by decide)⟩

/-- C6: preloading `["url1", "url2"]` where the first URL fails to decode
and the second succeeds ends with both URLs in the registry in input
order; in general, an uncancelled run appends exactly the fresh non-empty
URLs in input order, and the run is independent of the decode outcomes. -/
theorem preload_order_spec :
    (preloadRun (fun u => decide (u ≠ "url1")) none 0 [] (["url1", "url2"])).1 =
      (["url1", "url2"] : List String) ∧
    (∀ (dec : String → Bool) (t : ℕ) (loaded urls : List String),
      (preloadRun dec none t loaded urls).1 = loaded ++ freshAppend loaded urls) ∧
    (∀ (d1 d2 : String → Bool) (cAt : Option ℕ) (t : ℕ) (loaded urls : List String),
      preloadRun d1 cAt t loaded urls = preloadRun d2 cAt t loaded urls) := by
  refine ⟨by decide, fun dec t loaded urls => ?_, fun d1 d2 cAt t loaded urls =>
    preloadRun_dec_independent d1 d2 cAt urls t loaded⟩
  rw [preloadRun_no_cancel dec urls t loaded]

/-- C8: once the cancellation flag is set at a checkpoint, the preload
loop adds no further URL to the registry and triggers no further
re-render; if the flag becomes set during an in-flight decode (the next
checkpoint), the decode result is discarded and nothing is added either. -/
theorem preload_cancellation_spec (dec : String → Bool) (cAt : Option ℕ) (t : ℕ)
    (loaded urls : List String) :
    (cancelledAt cAt t = true → preloadRun dec cAt t loaded urls = (loaded, 0)) ∧
    (cancelledAt cAt (t + 1) = true → preloadRun dec cAt t loaded urls = (loaded, 0)) := by
  refine ⟨fun h => ?_, fun h => preloadRun_cancelled_succ dec cAt urls t loaded h⟩
  exact preloadRun_cancelled_succ dec cAt urls t loaded (cancelledAt_mono cAt t h)

/-- C8 witness: the cancellation theorem applied with the flag set at
checkpoint `0`, before a run over one fresh URL. -/
theorem preload_cancellation_spec_witness :
    cancelledAt (some 0) 0 = true ∧
    preloadRun (fun _ => true) (some 0) 0 (["a"]) (["b"]) = ((["a"] : List String), 0) :=
  ⟨by decide, (preload_cancellation_spec (fun _ => true) (some 0) 0 (["a"]) (["b"])).1 (by decide)⟩

/-- C3 counterexample: with stored ratios `meaning = 0.50` and
`pattern = 0.501` (all others `0`) and previous active `meaning`, the
recomputation yields `pattern`, not `meaning`: the margin `0.001` exceeds
the epsilon `1e-6` used by the code. -/
theorem commitBest_small_margin_displaces :
    commitBest pageSectionIds
      (fun id => if id = "meaning" then 1 / 2 else if id = "pattern" then 501 / 1000 else 0)
      "meaning" = "pattern" := by
  simp only [commitBest, bestStep, pageSectionIds, List.foldl_cons, List.foldl_nil,
    String.reduceEq, reduceIte]
  norm_num [tieEps]
  decide

/-- C3 amended: a candidate whose ratio does not exceed the running best
score by more than the epsilon `1e-6` never displaces the running best;
in particular, with stored ratios `meaning = 0.50` and
`pattern = 0.50 + 5e-7` (all others `0`) and previous active `meaning`,
the active section remains `meaning`. With `pattern = 0.501` the margin
`0.001` exceeds `1e-6` and the active section becomes `pattern`. -/
theorem commitBest_epsilon_retains_prev :
    (∀ (r : String → ℚ) (acc : String × ℚ) (id : String),
      r id ≤ acc.2 + tieEps → bestStep r acc id = acc) ∧
    commitBest pageSectionIds
      (fun id => if id = "meaning" then 1 / 2
        else if id = "pattern" then 1 / 2 + 1 / 2000000 else 0)
      "meaning" = "meaning" := by
  constructor
  · intro r acc id h
    unfold bestStep
    exact if_neg (not_lt.mpr h)
  · simp only [commitBest, bestStep, pageSectionIds, List.foldl_cons, List.foldl_nil,
      String.reduceEq, reduceIte]
    norm_num [tieEps]

/-- C3 witness: the no-displacement step applied at a concrete candidate
whose ratio does not exceed the best score plus epsilon. -/
theorem commitBest_epsilon_retains_prev_witness :
    (fun _ : String => (0 : ℚ)) "pattern" ≤ (("meaning", (1 : ℚ) / 2)).2 + tieEps ∧
    bestStep (fun _ : String => (0 : ℚ)) ("meaning", 1 / 2) "pattern" = ("meaning", 1 / 2) :=
  ⟨by norm_num [tieEps],
    commitBest_epsilon_retains_prev.1 (fun _ => 0) ("meaning", 1 / 2) "pattern"
      (by norm_num [tieEps])⟩

/-- C4 counterexample: with stored ratios `hero = 0.5` and
`meaning = 0.5 + 5e-7` (all others `0`), `meaning` holds the strictly
highest ratio, yet the recomputation returns `hero`: within the epsilon
`1e-6` the earlier section prevails, so the result is not always the id
with the highest recorded ratio. -/
theorem commitBest_not_argmax_within_eps :
    commitBest pageSectionIds
      (fun id => if id = "hero" then 1 / 2
        else if id = "meaning" then 1 / 2 + 1 / 2000000 else 0)
      "hero" = "hero" ∧
    (fun id => if id = "hero" then (1 : ℚ) / 2
      else if id = "meaning" then 1 / 2 + 1 / 2000000 else 0) "hero" <
      (fun id => if id = "hero" then (1 : ℚ) / 2
        else if id = "meaning" then 1 / 2 + 1 / 2000000 else 0) "meaning" ∧
    "hero" ∈ pageSectionIds ∧ "meaning" ∈ pageSectionIds := by
  refine ⟨?_, ?_, by decide, by decide⟩
  · simp only [commitBest, bestStep, pageSectionIds, List.foldl_cons, List.foldl_nil,
      String.reduceEq, reduceIte]
    norm_num [tieEps]
  · simp only [String.reduceEq, reduceIte]
    norm_num

/-- C4 amended: the recomputation scans the section ids in their fixed
declared order; an id whose ratio exceeds every other ratio by more than
the epsilon `1e-6` is always returned; an id never displaces an
earlier-declared id of greater or equal ratio (so exact ties resolve to
the earliest declared id); the result depends only on the final ratio
mapping, not on the arrival order of the visibility samples (permuting a
batch whose entry ids are distinct leaves the result unchanged); and for
ratios `hero = 0.1`, `meaning = 0.9`, `pattern = 0` the result is
`meaning`. -/
theorem commitBest_order_spec :
    (∀ (l₁ l₂ : List String) (m : String) (r : String → ℚ) (prev : String),
      m ≠ "" → 0 ≤ r m →
      (∀ id ∈ l₁, r id + tieEps < r m) →
      (∀ id ∈ l₂, r id + tieEps < r m) →
      commitBest (l₁ ++ m :: l₂) r prev = m) ∧
    (∀ (l₁ l₂ l₃ : List String) (a b : String) (r : String → ℚ) (prev : String),
      (∀ id ∈ l₁ ++ a :: (l₂ ++ b :: l₃), id ≠ "") →
      b ∉ l₁ → b ≠ a → b ∉ l₂ → b ∉ l₃ → 0 ≤ r a → r b ≤ r a →
      commitBest (l₁ ++ a :: (l₂ ++ b :: l₃)) r prev ≠ b) ∧
    (∀ (ids : List String) (m0 : String → ℚ) (e₁ e₂ : List (String × Bool × ℚ))
      (prev : String), e₁.Perm e₂ → (e₁.map Prod.fst).Nodup →
      commitBest ids (applyEntries m0 e₁) prev = commitBest ids (applyEntries m0 e₂) prev) ∧
    commitBest pageSectionIds
      (fun id => if id = "hero" then 1 / 10 else if id = "meaning" then 9 / 10 else 0)
      "hero" = "meaning" := by
  refine ⟨fun l₁ l₂ m r prev hm h0 h1 h2 => commitBest_argmax l₁ l₂ m r prev hm h0 h1 h2,
    fun l₁ l₂ l₃ a b r prev hne hb1 hba hb2 hb3 h0 hab =>
      commitBest_not_later_tie l₁ l₂ l₃ a b r prev hne hb1 hba hb2 hb3 h0 hab,
    fun ids m0 e₁ e₂ prev hp hd => by rw [applyEntries_perm hp hd m0],
    ?_⟩
  simp only [commitBest, bestStep, pageSectionIds, List.foldl_cons, List.foldl_nil,
    String.reduceEq, reduceIte]
  norm_num [tieEps]
  decide

/-- C4 witness: the margin clause applied at a concrete decomposition
where `meaning` exceeds every other ratio by more than the epsilon. -/
theorem commitBest_order_spec_witness :
    commitBest ((["hero"] : List String) ++ "meaning" :: (["pattern"] : List String))
      (fun id => if id = "meaning" then (9 : ℚ) / 10 else 0) "hero" = "meaning" :=
  commitBest_order_spec.1 ["hero"] ["pattern"] "meaning" _ "hero" (by decide)
    (by simp only [String.reduceEq, reduceIte]; norm_num)
    (by
      intro id hid
      simp only [List.mem_singleton] at hid
      subst hid
      simp only [String.reduceEq, reduceIte]
      norm_num [tieEps])
    (by
      intro id hid
      simp only [List.mem_singleton] at hid
      subst hid
      simp only [String.reduceEq, reduceIte]
      norm_num [tieEps])

/-- C10: the active section id is always an element of the supplied id
list when that list is non-empty (it starts at the first id and every
recomputation picks an id from the list); for the empty list it is the
empty string and never changes. -/
theorem activeSection_member_invariant (ids : List String) (s : ASState)
    (h : ASReach ids s) :
    (ids ≠ [] → s.active ∈ ids) ∧ (ids = [] → s.active = "") := by
  induction h with
  | init =>
    refine ⟨fun hne => headD_mem_of_ne_nil ids "" hne, fun hnil => ?_⟩
    subst hnil; rfl
  | step s entries hwf hr ih =>
    refine ⟨fun hne => commitBest_mem ids _ s.active hne (ih.1 hne), fun hnil => ?_⟩
    subst hnil
    show commitBest [] (applyEntries s.ratios entries) s.active = ""
    rw [commitBest_nil]
    exact ih.2 rfl

/-- C10 witness: the membership clause applied at the initial state over
the section id list of the page. -/
theorem activeSection_member_invariant_witness :
    pageSectionIds ≠ [] ∧
    (ASState.mk (fun _ => (0 : ℚ)) (pageSectionIds.headD "")).active ∈ pageSectionIds :=
  ⟨by decide,
    (activeSection_member_invariant pageSectionIds _ ASReach.init).1 (by decide)⟩

/-- C1 counterexample: at mount with active id `hero` the component
initializes the displayed key to `hero` before anything has preloaded,
so the renderer draws the hero image while its URL is absent from the
(empty) registry; the invariant fails at the initial state. -/
theorem crossfade_mount_shows_unloaded_image :
    CxReach "hero" (mountCx "hero") ∧
    renderedImage (mountCx "hero") = some "/pics/Vision_bg.png" ∧
    "/pics/Vision_bg.png" ∉ (mountCx "hero").loaded :=
  ⟨CxReach.mount, by decide, by decide⟩

/-- C1 amended: in every reachable state, either the displayed key is
still the mount-time key (whose image is rendered regardless of preload
state), or every image the renderer draws is in the loaded registry;
moreover, when the active id changes to a section whose configured image
is not yet in the registry, the displayed key (hence the previously
displayed configuration) is kept unchanged. -/
theorem crossfade_display_loaded_invariant (a0 : String) (s : CxState)
    (h : CxReach a0 s) :
    (s.displayKey = normalizeKey a0 ∨
      ∀ u, renderedImage s = some u → u ∈ s.loaded) ∧
    (∀ (a u : String), normalizeKey a ≠ s.lastKey → normalizeKey a ≠ "none" →
      (cfgFor (normalizeKey a)).bind BgCfg.image = some u → u ∉ s.loaded →
      (cxStep s (CxEv.setActive a)).displayKey = s.displayKey) :=
  ⟨crossfade_inv a0 s h,
   fun a u hk hn him hu => cxStep_keeps_display s a u hk hn him hu⟩

/-- C1 witness: the keep-previous clause applied at the mounted state
when the active id changes to `pattern` with its image not yet loaded. -/
theorem crossfade_display_loaded_invariant_witness :
    (cxStep (mountCx "hero") (CxEv.setActive "pattern")).displayKey =
      (mountCx "hero").displayKey :=
  (crossfade_display_loaded_invariant "hero" (mountCx "hero") CxReach.mount).2
    "pattern" "/pics/pattern.JPG" (by decide) (by decide) (by decide) (by decide)

/-- C2: evaluation of the deferred-switch scenario. After the active id
changes to `pattern` while its image is unloaded, the displayed key
correctly stays at `hero`; but when the pattern image then finishes
loading, the effect does not re-run (its `isLoaded` dependency has stable
identity), so the displayed key remains `hero` even though the pattern
image is now marked loaded — the switch the specification promises never
happens. -/
theorem crossfade_missing_switch_on_load :
    CxReach "hero" patternLoadTrace ∧
    patternLoadTrace.active = "pattern" ∧
    isLoaded patternLoadTrace.loaded (some "/pics/pattern.JPG") = true ∧
    patternLoadTrace.displayKey = "hero" :=
  ⟨CxReach.step _ _ (CxReach.step _ _ (CxReach.step _ _ CxReach.mount)),
   by decide, by decide, by decide⟩

end SOS
